import Mathlib

/-!
Verification of the wallet synchronization engine (`src/clients/sync.rs` and
`src/lib.rs`).

Shallow embedding notes.
* Bytes are modelled as `Nat`; record (de)serialization (`rkyv`) is an opaque
  capability, passed as a parameter `dec : List Nat → Except Unit TreeLeaf`.
* The cryptographic capabilities `ViewKey::owns` and `Note::gen_nullifier`
  are opaque and passed as function parameters `owns` and `gnf`.
* `BlsScalar` nullifiers and public spend keys are modelled as `Nat`
  (`to_bytes` is injective, so keying by the scalar itself is faithful).
* The RocksDB store is modelled as an association list of column families,
  each an association list from nullifier to stored value; a family being
  present in the list corresponds to `cf_handle` returning `Some`.
* Rust panics (`expect`) are modelled as an `Error.panic msg` value carrying
  the panic message: a panic aborts the operation and is never silent.
* The `status` callbacks are purely observational (spec section 6) and are
  not modelled; observable actions are recorded in an event trace `Ev`.
-/

/-- A decoded ledger note: its ledger-assigned position plus an opaque
confidential payload (`phoenix_core::Note`). -/
structure Note where
  pos : Nat
  payload : Nat
deriving DecidableEq, Repr

/-- `phoenix_core::transaction::TreeLeaf`: block height plus note. -/
structure TreeLeaf where
  block_height : Nat
  note : Note
deriving DecidableEq, Repr

/-- One `(ssk, vk, psk)` tuple as built at sync.rs lines 29-36. -/
structure KeyTuple where
  ssk : Nat
  vk : Nat
  psk : Nat
deriving DecidableEq, Repr

/-- Panic message at sync.rs line 112. -/
def msgSpentCf : String := "spent_cf to exists"

/-- Panic message at sync.rs line 121. -/
def msgNoteMissing : String := "Note must exists to be moved"

/-- The error type: `Error::Rkyv` for (de)serialization failures, transport
and storage failures, and a modelled variant for Rust panics (`expect`). -/
inductive Error where
  | Rkyv : Error
  | Transport : Error
  | Storage : Error
  | panic : String → Error
deriving DecidableEq, Repr

/-- Column-family names. sync.rs line 95 derives the live family name
deterministically from the public key (`format "{:?}" psk`) and line 110 the
spent one (`format "spent_{:?}" psk`); both transforms are injective and
collision-free, which the two constructors model. -/
inductive CfName where
  | live : Nat → CfName
  | spent : Nat → CfName
deriving DecidableEq, Repr

/-- Modelled from the spec: the value stored in a cache partition for a
nullifier (the note with its block height and nullifier, serialized by the
missing `cache.rs`); reconciliation moves it between partitions unmodified. -/
structure Stored where
  height : Nat
  note : Note
  nf : Nat
deriving DecidableEq, Repr

/-- Observable actions of a sync run: a note insertion into a live
partition, a write of the position cache, the single streaming request, and
a remote `existing_nullifiers` round-trip. -/
inductive Ev where
  | insertNote : Nat → Nat → Ev
  | writePos : Nat → Ev
  | streamRequest : Nat → Ev
  | remoteCall : List Nat → Ev
deriving DecidableEq, Repr

/-- Association-list lookup (model of a RocksDB point read). -/
def getA {κ β : Type} [DecidableEq κ] : List (κ × β) → κ → Option β
  | [], _ => none
  | (k, v) :: rest, q => if k = q then some v else getA rest q

/-- Association-list insert-or-overwrite (model of a RocksDB put). -/
def putA {κ β : Type} [DecidableEq κ] : List (κ × β) → κ → β → List (κ × β)
  | [], k, v => [(k, v)]
  | (k', v') :: rest, k, v =>
      if k' = k then (k, v) :: rest else (k', v') :: putA rest k v

/-- Association-list delete (model of a RocksDB delete). -/
def delA {κ β : Type} [DecidableEq κ] : List (κ × β) → κ → List (κ × β)
  | [], _ => []
  | (k', v') :: rest, k =>
      if k' = k then delA rest k else (k', v') :: delA rest k

/-- A column family: nullifier-keyed entries, in storage order. -/
abbrev Cf := List (Nat × Stored)

/-- The cache store: the column families that exist (absent name =
`cf_handle` returns `None`), plus the reserved last-position key, which the
spec places outside any per-address partition. -/
structure DB where
  cfs : List (CfName × Cf)
  lastPos : Option Nat
deriving DecidableEq, Repr

/-- `rocksdb cf_handle`: `None` when the partition was never created. -/
def DB.cf_handle (db : DB) (c : CfName) : Option Cf :=
  getA db.cfs c

/-- `rocksdb get_cf` (an absent family reads as empty). -/
def DB.get_cf (db : DB) (c : CfName) (k : Nat) : Option Stored :=
  getA ((db.cf_handle c).getD []) k

/-- `rocksdb put_cf` (creates the family if absent). -/
def DB.put_cf (db : DB) (c : CfName) (k : Nat) (v : Stored) : DB :=
  { db with cfs := putA db.cfs c (putA ((db.cf_handle c).getD []) k v) }

/-- `rocksdb delete_cf`. -/
def DB.delete_cf (db : DB) (c : CfName) (k : Nat) : DB :=
  { db with cfs := putA db.cfs c (delA ((db.cf_handle c).getD []) k) }

/-- Modelled from the spec: `Cache::last_pos` (the missing `cache.rs`)
reads the persisted high-water mark, absent meaning never synced. -/
def Cache.last_pos (db : DB) : Option Nat :=
  db.lastPos

/-- Modelled from the spec: `Cache::insert_last_pos` (the missing
`cache.rs`) persists the given position unconditionally; the cache itself
does not enforce monotonicity. -/
def Cache.insert_last_pos (db : DB) (p : Nat) : DB :=
  { db with lastPos := some p }

/-- Modelled from the spec: `Cache::insert` (the missing `cache.rs`) writes
the note into the live partition of the key, keyed by nullifier bytes,
overwriting idempotently; the partition is lazily created if absent. -/
def Cache.insert (db : DB) (psk : Nat) (height : Nat) (note : Note)
    (nf : Nat) : DB :=
  db.put_cf (CfName.live psk) nf ⟨height, note, nf⟩

/-- Fuel-driven worker for `chunksExact` (structural, so that it reduces in
the kernel); the fuel is an upper bound on the number of records. -/
def chunksExactGo {α : Type} (k : Nat) : Nat → List α → List (List α) × List α
  | 0, l => ([], l)
  | fuel + 1, l =>
      if 0 < k ∧ k ≤ l.length then
        let r := chunksExactGo k fuel (l.drop k)
        (l.take k :: r.1, r.2)
      else ([], l)

/-- Rust `slice::chunks_exact(k)` as consumed by the loop at sync.rs
lines 71-90: the full `k`-sized frames in order, and the remainder of
length `< k` that stays buffered. -/
def chunksExact {α : Type} (k : Nat) (l : List α) : List (List α) × List α :=
  chunksExactGo k l.length l

/-- Sequenced decoding of a list of record frames (`rkyv::from_bytes` per
frame, first failure aborts). -/
def decodeAll (dec : List Nat → Except Unit TreeLeaf) :
    List (List Nat) → Except Unit (List TreeLeaf)
  | [] => Except.ok []
  | b :: bs =>
      match dec b with
      | Except.error e => Except.error e
      | Except.ok l =>
          match decodeAll dec bs with
          | Except.error e => Except.error e
          | Except.ok ls => Except.ok (l :: ls)

/-- The mutable state of the streaming loop: the cache plus the running
`last_pos` maximum (sync.rs line 42). -/
structure SyncSt where
  db : DB
  lastPos : Nat
deriving DecidableEq, Repr

/-- Body of the per-record loop, sync.rs lines 73-88: decode the frame
(`Error::Rkyv` on failure), update the running maximum with the note
position, insert for the first key tuple whose view key owns the note
(`break` after the first match), then persist the running maximum. -/
def processLeafBytes (dec : List Nat → Except Unit TreeLeaf)
    (owns : Nat → Note → Bool) (gnf : Note → Nat → Nat)
    (addrs : List KeyTuple) (st : SyncSt) (b : List Nat) :
    SyncSt × List Ev × Option Error :=
  match dec b with
  | Except.error _ => (st, [], some Error.Rkyv)
  | Except.ok leaf =>
      let lp := Nat.max st.lastPos leaf.note.pos
      match addrs.find? fun t => owns t.vk leaf.note with
      | some t =>
          let nf := gnf leaf.note t.ssk
          let db1 := Cache.insert st.db t.psk leaf.block_height leaf.note nf
          let db2 := Cache.insert_last_pos db1 lp
          (⟨db2, lp⟩, [Ev.insertNote t.psk nf, Ev.writePos lp], none)
      | none =>
          let db2 := Cache.insert_last_pos st.db lp
          (⟨db2, lp⟩, [Ev.writePos lp], none)

/-- The `for leaf_bytes in leaf_chunk` loop: process the extracted frames
in order, aborting at the first error (state changes of the completed
iterations persist). -/
def processLeaves (dec : List Nat → Except Unit TreeLeaf)
    (owns : Nat → Note → Bool) (gnf : Note → Nat → Nat)
    (addrs : List KeyTuple) : SyncSt → List (List Nat) →
    SyncSt × List Ev × Option Error
  | st, [] => (st, [], none)
  | st, b :: bs =>
      let r1 := processLeafBytes dec owns gnf addrs st b
      match r1.2.2 with
      | some e => (r1.1, r1.2.1, some e)
      | none =>
          let r2 := processLeaves dec owns gnf addrs r1.1 bs
          (r2.1, r1.2.1 ++ r2.2.1, r2.2.2)

/-- The `while let Some(http_chunk) = stream.next()` loop, sync.rs
lines 68-91: append the transport chunk to the buffer (a transport error
aborts), extract and process all whole records, keep the remainder
buffered; trailing partial bytes at stream end are dropped. -/
def syncStream (k : Nat) (dec : List Nat → Except Unit TreeLeaf)
    (owns : Nat → Note → Bool) (gnf : Note → Nat → Nat)
    (addrs : List KeyTuple) : SyncSt → List Nat →
    List (Except Error (List Nat)) → SyncSt × List Ev × Option Error
  | st, _, [] => (st, [], none)
  | st, buffer, c :: cs =>
      match c with
      | Except.error e => (st, [], some e)
      | Except.ok chunk =>
          let pr := chunksExact k (buffer ++ chunk)
          let r1 := processLeaves dec owns gnf addrs st pr.1
          match r1.2.2 with
          | some e => (r1.1, r1.2.1, some e)
          | none =>
              let r2 := syncStream k dec owns gnf addrs r1.1 pr.2 cs
              (r2.1, r1.2.1 ++ r2.2.1, r2.2.2)

/-- sync.rs line 41: `last_pos.map(|p| p + 1).unwrap_or_default()`. -/
def posToSearch (db : DB) : Nat :=
  match Cache.last_pos db with
  | some p => p + 1
  | none => 0

/-- sync.rs lines 133-152: ask the node which of the given nullifiers
already exist; empty input short-circuits to an empty result with no
round-trip (no `remoteCall` event). A malformed response is an
`Error.Rkyv` inside the `remote` capability. -/
def fetch_existing_nullifiers_remote
    (remote : List Nat → Except Error (List Nat)) (nullifiers : List Nat) :
    Except Error (List Nat) × List Ev :=
  if nullifiers.isEmpty then (Except.ok [], [])
  else (remote nullifiers, [Ev.remoteCall nullifiers])

/-- Body of the `for n in existing` loop, sync.rs lines 116-124: read the
entry from the live family (panic `msgNoteMissing` when absent), write it
unmodified into the spent family under the same key, delete it from the
live family. -/
def moveStep (db : DB) (psk : Nat) (n : Nat) : DB × Option Error :=
  match db.get_cf (CfName.live psk) n with
  | none => (db, some (Error.panic msgNoteMissing))
  | some v =>
      let db1 := db.put_cf (CfName.spent psk) n v
      let db2 := db1.delete_cf (CfName.live psk) n
      (db2, none)

/-- The `for n in existing` loop over all confirmed nullifiers. -/
def moveSpent (db : DB) (psk : Nat) : List Nat → DB × Option Error
  | [] => (db, none)
  | n :: ns =>
      let r := moveStep db psk n
      match r.2 with
      | some e => (r.1, some e)
      | none => moveSpent r.1 psk ns

/-- Reconciliation for one public key, sync.rs lines 94-127: an absent
live handle skips the key; collect the nullifiers of the live family in
storage order; when non-empty, resolve the spent handle (panic
`msgSpentCf` when absent), query the node once, and move every confirmed
nullifier. -/
def reconcileKey (remote : List Nat → Except Error (List Nat)) (db : DB)
    (psk : Nat) : DB × List Ev × Option Error :=
  match db.cf_handle (CfName.live psk) with
  | none => (db, [], none)
  | some cf =>
      let nullifiers := cf.map Prod.fst
      if nullifiers.isEmpty then (db, [], none)
      else
        match db.cf_handle (CfName.spent psk) with
        | none => (db, [], some (Error.panic msgSpentCf))
        | some _ =>
            let fr := fetch_existing_nullifiers_remote remote nullifiers
            match fr.1 with
            | Except.error e => (db, fr.2, some e)
            | Except.ok existing =>
                let mr := moveSpent db psk existing
                (mr.1, fr.2, mr.2)

/-- The `for (_, _, psk) in addresses` reconciliation loop; the first
error aborts (`?` propagation). -/
def reconcileAll (remote : List Nat → Except Error (List Nat))
    (addrs : List KeyTuple) (db : DB) : DB × List Ev × Option Error :=
  match addrs with
  | [] => (db, [], none)
  | t :: ts =>
      let r1 := reconcileKey remote db t.psk
      match r1.2.2 with
      | some e => (r1.1, r1.2.1, some e)
      | none =>
          let r2 := reconcileAll remote ts r1.1
          (r2.1, r1.2.1 ++ r2.2.1, r2.2.2)

/-- `sync_db`, sync.rs lines 23-129: read the resume point, request the
stream from `posToSearch`, run the buffered streaming loop from the
persisted high-water mark (default 0), then, if it succeeded, run the
reconciliation pass. The result is the final cache, the event trace, and
the error (if any) surfaced to the caller. -/
def sync_db (k : Nat) (dec : List Nat → Except Unit TreeLeaf)
    (owns : Nat → Note → Bool) (gnf : Note → Nat → Nat)
    (addrs : List KeyTuple) (remote : List Nat → Except Error (List Nat))
    (db : DB) (chunks : List (Except Error (List Nat))) :
    DB × List Ev × Option Error :=
  let st0 : SyncSt := ⟨db, (Cache.last_pos db).getD 0⟩
  let evReq := Ev.streamRequest (posToSearch db)
  let r1 := syncStream k dec owns gnf addrs st0 [] chunks
  match r1.2.2 with
  | some e => (r1.1.db, evReq :: r1.2.1, some e)
  | none =>
      let r2 := reconcileAll remote addrs r1.1.db
      (r2.1, evReq :: (r1.2.1 ++ r2.2.1), r2.2.2)

/-- lib.rs line 47. -/
def DEFAULT_MAX_ADDRESSES : Nat := 25

/-- lib.rs line 53 panic message (note: the message claims a 255 bound
while the guard compares against `DEFAULT_MAX_ADDRESSES = 25`). -/
def msgMaxAddrTooLarge : String := "WALLET_MAX_ADDR must be lower or equal to 255"

/-- lib.rs line 56 panic message. -/
def msgMaxAddrTooSmall : String := "WALLET_MAX_ADDR must be greater than 5"

/-- lib.rs line 57 panic message. -/
def msgMaxAddrInvalid : String := "Invalid WALLET_MAX_ADDR"

/-- `get_max_addresses`, lib.rs lines 49-61. The environment override is
`none` when `WALLET_MAX_ADDR` is unset, `some none` when it is set but
unparsable, and `some (some v)` when it parses to `v`; a compile-time
panic is modelled as `Except.error` carrying the panic message. -/
def get_max_addresses : Option (Option Nat) → Except String Nat
  | some (some e) =>
      if e > DEFAULT_MAX_ADDRESSES then Except.error msgMaxAddrTooLarge
      else if e > 5 then Except.ok e
      else Except.error msgMaxAddrTooSmall
  | some none => Except.error msgMaxAddrInvalid
  | none => Except.ok DEFAULT_MAX_ADDRESSES

/-- The position-cache writes recorded in a trace, in order. -/
def posWrites (evs : List Ev) : List Nat :=
  evs.filterMap fun e =>
    match e with
    | Ev.writePos p => some p
    | _ => none

/-- The note insertions recorded in a trace, counted. -/
def countInserts (evs : List Ev) : Nat :=
  (evs.filter fun e =>
    match e with
    | Ev.insertNote _ _ => true
    | _ => false).length

/-- Running maxima: element `i` is the maximum of `init` and the first
`i + 1` inputs. -/
def scanMax (init : Nat) : List Nat → List Nat
  | [] => []
  | p :: ps => Nat.max init p :: scanMax (Nat.max init p) ps

/-- Live/spent disjointness for one public key (spec section 3). -/
def Disj (db : DB) (psk : Nat) : Prop :=
  ∀ n, (db.get_cf (CfName.live psk) n).isSome = true →
    db.get_cf (CfName.spent psk) n = none

/-! ## Concrete instances used to witness the theorems on executable runs -/

/-- A decoder that always succeeds; the note position is the first byte. -/
def decByte : List Nat → Except Unit TreeLeaf :=
  fun b => Except.ok ⟨0, ⟨b.headD 0, 0⟩⟩

/-- A decoder that fails exactly on frames starting with byte 9
(a malformed record), and otherwise behaves like `decByte`. -/
def decMarked : List Nat → Except Unit TreeLeaf :=
  fun b => if b.headD 0 = 9 then Except.error () else Except.ok ⟨0, ⟨b.headD 0, 0⟩⟩

/-- An ownership test that accepts every note. -/
def ownsAll : Nat → Note → Bool := fun _ _ => true

/-- An ownership test that rejects every note. -/
def ownsNone : Nat → Note → Bool := fun _ _ => false

/-- A nullifier derivation returning the constant 7. -/
def gnfSeven : Note → Nat → Nat := fun _ _ => 7

/-- An ownership test accepting exactly view key 2. -/
def ownsVkTwo : Nat → Note → Bool := fun vk _ => vk == 2

/-- A single key tuple. -/
def addr0 : KeyTuple := ⟨0, 0, 0⟩

/-- A remote node that confirms no nullifier. -/
def remoteEmpty : List Nat → Except Error (List Nat) := fun _ => Except.ok []

/-- A remote node that confirms every queried nullifier. -/
def remoteAll : List Nat → Except Error (List Nat) := fun ns => Except.ok ns

/-- A remote node that confirms exactly nullifier 2. -/
def remoteTwo : List Nat → Except Error (List Nat) := fun _ => Except.ok [2]

/-- A remote node that reports nullifier 9 spent (whether tracked or not). -/
def remoteNine : List Nat → Except Error (List Nat) := fun _ => Except.ok [9]

/-- A stored value keyed by nullifier `n`. -/
def mkStored (n : Nat) : Stored := ⟨0, ⟨0, 0⟩, n⟩

/-- The state of a fresh wallet cache: both partitions of key 0 created
empty, never synced. -/
def dbInit : DB := ⟨[(CfName.live 0, []), (CfName.spent 0, [])], none⟩

/-- A cache whose spent partition of key 0 already holds nullifier 9. -/
def dbSpent9 : DB := ⟨[(CfName.spent 0, [(9, mkStored 9)])], none⟩

/-- A cache with live nullifiers 1, 2, 3 for key 0 and an empty spent
partition. -/
def dbABC : DB :=
  ⟨[(CfName.live 0, [(1, mkStored 1), (2, mkStored 2), (3, mkStored 3)]),
    (CfName.spent 0, [])], none⟩

/-- A cache with a non-empty live partition for key 0 whose spent
partition was never created. -/
def dbNoSpent : DB := ⟨[(CfName.live 0, [(5, mkStored 5)])], none⟩

/-- First sync run of the disjointness scenario: the streamed note (owned,
nullifier 7) is inserted live, then the remote confirms it spent and it is
migrated. -/
def c5run1 : DB × List Ev × Option Error :=
  sync_db 1 decByte ownsAll gnfSeven [addr0] remoteAll dbInit [Except.ok [0]]

/-- Second sync run of the disjointness scenario: the transport redelivers
the same record (the same owned note, nullifier 7), and the remote now
answers with the empty set, so no migration occurs. -/
def c5run2 : DB × List Ev × Option Error :=
  sync_db 1 decByte ownsAll gnfSeven [addr0] remoteEmpty c5run1.1
    [Except.ok [0]]

/-! ## Association-list and store lemmas -/

lemma getA_putA {κ β : Type} [DecidableEq κ] (l : List (κ × β)) (k q : κ)
    (v : β) : getA (putA l k v) q = if k = q then some v else getA l q := by
  induction l with
  | nil => simp [putA, getA]
  | cons kv rest ih =>
      obtain ⟨k', v'⟩ := kv
      by_cases h : k' = k
      · subst h
        by_cases hq : k' = q
        · simp [putA, getA, hq]
        · simp [putA, getA, hq]
      · simp only [putA, if_neg h, getA]
        by_cases hq : k' = q
        · subst hq
          have : ¬ k = k' := fun hh => h hh.symm
          simp [getA, if_neg this, this]
        · simp [getA, if_neg hq, ih]

lemma getA_delA {κ β : Type} [DecidableEq κ] (l : List (κ × β)) (k q : κ) :
    getA (delA l k) q = if k = q then none else getA l q := by
  induction l with
  | nil => simp [delA, getA]
  | cons kv rest ih =>
      obtain ⟨k', v'⟩ := kv
      by_cases h : k' = k
      · subst h
        by_cases hq : k' = q
        · subst hq
          simpa [delA, getA] using ih
        · simp [delA, getA, if_neg hq, ih]
      · simp only [delA, if_neg h, getA]
        by_cases hq : k' = q
        · subst hq
          have : ¬ k = k' := fun hh => h hh.symm
          simp [if_neg this]
        · simp [if_neg hq, ih]

lemma cf_handle_put_cf (db : DB) (c c' : CfName) (k : Nat) (v : Stored) :
    (db.put_cf c k v).cf_handle c' =
      if c = c' then some (putA ((db.cf_handle c).getD []) k v)
      else db.cf_handle c' := by
  simp [DB.put_cf, DB.cf_handle, getA_putA]

lemma cf_handle_delete_cf (db : DB) (c c' : CfName) (k : Nat) :
    (db.delete_cf c k).cf_handle c' =
      if c = c' then some (delA ((db.cf_handle c).getD []) k)
      else db.cf_handle c' := by
  simp [DB.delete_cf, DB.cf_handle, getA_putA]

lemma get_cf_put_cf (db : DB) (c c' : CfName) (k q : Nat) (v : Stored) :
    (db.put_cf c k v).get_cf c' q =
      if c = c' then (if k = q then some v else db.get_cf c' q)
      else db.get_cf c' q := by
  by_cases h : c = c'
  · subst h
    simp [DB.get_cf, cf_handle_put_cf, getA_putA]
  · simp [DB.get_cf, cf_handle_put_cf, if_neg h]

lemma get_cf_delete_cf (db : DB) (c c' : CfName) (k q : Nat) :
    (db.delete_cf c k).get_cf c' q =
      if c = c' then (if k = q then none else db.get_cf c' q)
      else db.get_cf c' q := by
  by_cases h : c = c'
  · subst h
    simp [DB.get_cf, cf_handle_delete_cf, getA_delA]
  · simp [DB.get_cf, cf_handle_delete_cf, if_neg h]

lemma lastPos_put_cf (db : DB) (c : CfName) (k : Nat) (v : Stored) :
    (db.put_cf c k v).lastPos = db.lastPos := rfl

lemma lastPos_delete_cf (db : DB) (c : CfName) (k : Nat) :
    (db.delete_cf c k).lastPos = db.lastPos := rfl

lemma cf_handle_insert_last_pos (db : DB) (p : Nat) (c : CfName) :
    (Cache.insert_last_pos db p).cf_handle c = db.cf_handle c := rfl

lemma get_cf_insert_last_pos (db : DB) (p : Nat) (c : CfName) (q : Nat) :
    (Cache.insert_last_pos db p).get_cf c q = db.get_cf c q := rfl

/-! ## Chunking lemmas -/

lemma chunksExactGo_irrel {α : Type} (k : Nat) :
    ∀ f₁ f₂ (l : List α), l.length ≤ f₁ → l.length ≤ f₂ →
      chunksExactGo k f₁ l = chunksExactGo k f₂ l := by
  intro f₁
  induction f₁ with
  | zero =>
      intro f₂ l h1 _
      have hl : l = [] := List.length_eq_zero.mp (Nat.le_zero.mp h1)
      subst hl
      cases f₂ with
      | zero => rfl
      | succ g =>
          have hne : ¬(0 < k ∧ k ≤ ([] : List α).length) := by
            intro h
            simp at h
            omega
          simp only [chunksExactGo, if_neg hne]
  | succ f ih =>
      intro f₂ l h1 h2
      cases f₂ with
      | zero =>
          have hl : l = [] := List.length_eq_zero.mp (Nat.le_zero.mp h2)
          subst hl
          have hne : ¬(0 < k ∧ k ≤ ([] : List α).length) := by
            intro h
            simp at h
            omega
          simp only [chunksExactGo, if_neg hne]
      | succ g =>
          simp only [chunksExactGo]
          by_cases hc : 0 < k ∧ k ≤ l.length
          · rw [if_pos hc, if_pos hc]
            have hd : (l.drop k).length ≤ f := by
              rw [List.length_drop]
              omega
            have hd2 : (l.drop k).length ≤ g := by
              rw [List.length_drop]
              omega
            rw [ih g (l.drop k) hd hd2]
          · rw [if_neg hc, if_neg hc]

lemma chunksExact_eq {α : Type} (k : Nat) (l : List α) :
    chunksExact k l =
      if 0 < k ∧ k ≤ l.length then
        ((l.take k) :: (chunksExact k (l.drop k)).1,
          (chunksExact k (l.drop k)).2)
      else ([], l) := by
  cases hl : l.length with
  | zero =>
      have hnil : l = [] := List.length_eq_zero.mp hl
      subst hnil
      have hne : ¬(0 < k ∧ k ≤ 0) := by omega
      simp only [chunksExact, chunksExactGo, List.length_nil, if_neg hne]
  | succ m =>
      by_cases hc : 0 < k ∧ k ≤ l.length
      · have hc' : 0 < k ∧ k ≤ m + 1 := by
          rw [hl] at hc
          exact hc
        have hclen : 0 < k ∧ k ≤ (m + 1 : Nat) → 0 < k ∧ k ≤ l.length := by
          rw [hl]
          exact id
        have h1 : chunksExactGo k l.length l
            = chunksExactGo k (m + 1) l := by rw [hl]
        have hd : (l.drop k).length ≤ m := by
          rw [List.length_drop]
          omega
        simp only [chunksExact, h1, chunksExactGo, if_pos hc']
        rw [chunksExactGo_irrel k m (l.drop k).length (l.drop k) hd le_rfl,
          if_pos hc]
      · have hc' : ¬(0 < k ∧ k ≤ m + 1) := by
          rw [hl] at hc
          exact hc
        simp only [chunksExact, if_neg hc]
        rw [hl]
        simp only [chunksExactGo, if_neg hc']
        rw [if_neg hc]

lemma chunksExact_nil {α : Type} (k : Nat) :
    chunksExact k ([] : List α) = ([], []) := rfl

lemma chunksExact_rem {α : Type} (k : Nat) (l : List α) :
    chunksExact k (chunksExact k l).2 = ([], (chunksExact k l).2) := by
  generalize hn : l.length = n
  induction n using Nat.strong_induction_on generalizing l with
  | _ n ih =>
      rw [chunksExact_eq k l]
      by_cases hc : 0 < k ∧ k ≤ l.length
      · rw [if_pos hc]
        have hd : (l.drop k).length < n := by
          rw [List.length_drop]
          omega
        exact ih _ hd (l.drop k) rfl
      · rw [if_neg hc]
        rw [chunksExact_eq k l, if_neg hc]

lemma chunksExact_append {α : Type} (k : Nat) (l₁ l₂ : List α) :
    chunksExact k (l₁ ++ l₂) =
      ((chunksExact k l₁).1 ++ (chunksExact k ((chunksExact k l₁).2 ++ l₂)).1,
        (chunksExact k ((chunksExact k l₁).2 ++ l₂)).2) := by
  by_cases hc : 0 < k ∧ k ≤ l₁.length
  · have hlen : k ≤ (l₁ ++ l₂).length := by
      rw [List.length_append]
      omega
    have hc2 : 0 < k ∧ k ≤ (l₁ ++ l₂).length := ⟨hc.1, hlen⟩
    rw [chunksExact_eq k (l₁ ++ l₂), if_pos hc2, chunksExact_eq k l₁,
      if_pos hc]
    rw [List.take_append_of_le_length hc.2,
      List.drop_append_of_le_length hc.2]
    rw [chunksExact_append k (l₁.drop k) l₂]
    simp
  · rw [chunksExact_eq k l₁, if_neg hc]
    simp
termination_by l₁.length
decreasing_by
  rw [List.length_drop]
  omega

lemma chunksExact_flatten {α : Type} (k : Nat) (records : List (List α))
    (hk : 0 < k) (h : ∀ r ∈ records, r.length = k) :
    chunksExact k records.flatten = (records, []) := by
  induction records with
  | nil => simpa using chunksExact_nil k
  | cons r rs ih =>
      have hr : r.length = k := h r (by simp)
      have hcond : 0 < k ∧ k ≤ (r ++ rs.flatten).length := by
        rw [List.length_append, hr]
        omega
      have hkr : k ≤ r.length := le_of_eq hr.symm
      rw [List.flatten_cons, chunksExact_eq, if_pos hcond]
      rw [List.take_append_of_le_length hkr,
        List.drop_append_of_le_length hkr]
      rw [List.take_of_length_le (le_of_eq hr),
        List.drop_eq_nil_of_le (le_of_eq hr), List.nil_append]
      rw [ih fun x hx => h x (by simp [hx])]

lemma processLeaves_append_err (dec : List Nat → Except Unit TreeLeaf)
    (owns : Nat → Note → Bool) (gnf : Note → Nat → Nat)
    (addrs : List KeyTuple) :
    ∀ (l₁ l₂ : List (List Nat)) (st : SyncSt) (e : Error),
      (processLeaves dec owns gnf addrs st l₁).2.2 = some e →
      processLeaves dec owns gnf addrs st (l₁ ++ l₂)
        = processLeaves dec owns gnf addrs st l₁ := by
  intro l₁
  induction l₁ with
  | nil =>
      intro l₂ st e h
      simp [processLeaves] at h
  | cons b bs ih =>
      intro l₂ st e h
      simp only [processLeaves, List.cons_append, List.append_eq] at h ⊢
      cases hr : (processLeafBytes dec owns gnf addrs st b).2.2 with
      | some e' => simp [hr]
      | none =>
          simp only [hr] at h ⊢
          rw [ih l₂ (processLeafBytes dec owns gnf addrs st b).1 e h]

lemma processLeaves_append_ok (dec : List Nat → Except Unit TreeLeaf)
    (owns : Nat → Note → Bool) (gnf : Note → Nat → Nat)
    (addrs : List KeyTuple) :
    ∀ (l₁ l₂ : List (List Nat)) (st : SyncSt),
      (processLeaves dec owns gnf addrs st l₁).2.2 = none →
      processLeaves dec owns gnf addrs st (l₁ ++ l₂)
        = ((processLeaves dec owns gnf addrs
              (processLeaves dec owns gnf addrs st l₁).1 l₂).1,
           (processLeaves dec owns gnf addrs st l₁).2.1 ++
             (processLeaves dec owns gnf addrs
               (processLeaves dec owns gnf addrs st l₁).1 l₂).2.1,
           (processLeaves dec owns gnf addrs
             (processLeaves dec owns gnf addrs st l₁).1 l₂).2.2) := by
  intro l₁
  induction l₁ with
  | nil =>
      intro l₂ st _
      simp [processLeaves]
  | cons b bs ih =>
      intro l₂ st h
      simp only [processLeaves, List.cons_append, List.append_eq] at h ⊢
      cases hr : (processLeafBytes dec owns gnf addrs st b).2.2 with
      | some e' => simp [hr] at h
      | none =>
          simp only [hr] at h ⊢
          rw [ih l₂ (processLeafBytes dec owns gnf addrs st b).1 h]
          simp

lemma syncStream_map_ok (k : Nat) (dec : List Nat → Except Unit TreeLeaf)
    (owns : Nat → Note → Bool) (gnf : Note → Nat → Nat)
    (addrs : List KeyTuple) :
    ∀ (chunks : List (List Nat)) (st : SyncSt) (buffer : List Nat),
      (chunksExact k buffer).1 = [] →
      syncStream k dec owns gnf addrs st buffer (chunks.map Except.ok)
        = processLeaves dec owns gnf addrs st
            (chunksExact k (buffer ++ chunks.flatten)).1 := by
  intro chunks
  induction chunks with
  | nil =>
      intro st buffer h
      simp only [List.map_nil, syncStream, List.flatten_nil, List.append_nil, h,
        processLeaves]
  | cons c cs ih =>
      intro st buffer h
      simp only [List.map_cons, syncStream, List.flatten_cons]
      have hassoc : buffer ++ (c ++ cs.flatten) = (buffer ++ c) ++ cs.flatten := by
        rw [List.append_assoc]
      rw [hassoc, chunksExact_append k (buffer ++ c) cs.flatten]
      cases hr : (processLeaves dec owns gnf addrs st
          (chunksExact k (buffer ++ c)).1).2.2 with
      | some e =>
          simp only [hr]
          rw [processLeaves_append_err dec owns gnf addrs _ _ _ e hr, ← hr]
      | none =>
          simp only [hr]
          have hrem : (chunksExact k (chunksExact k (buffer ++ c)).2).1 = [] := by
            rw [chunksExact_rem]
          rw [processLeaves_append_ok dec owns gnf addrs _ _ _ hr,
            ih _ _ hrem]

lemma syncStream_all (k : Nat) (dec : List Nat → Except Unit TreeLeaf)
    (owns : Nat → Note → Bool) (gnf : Note → Nat → Nat)
    (addrs : List KeyTuple) (chunks : List (List Nat)) (st : SyncSt) :
    syncStream k dec owns gnf addrs st [] (chunks.map Except.ok)
      = processLeaves dec owns gnf addrs st (chunksExact k chunks.flatten).1 := by
  have h := syncStream_map_ok k dec owns gnf addrs chunks st [] (by rfl)
  simpa using h

/-! ## Position-trace lemmas -/

lemma posWrites_append (a b : List Ev) :
    posWrites (a ++ b) = posWrites a ++ posWrites b := by
  simp [posWrites, List.filterMap_append]

lemma scanMax_chain (ps : List Nat) :
    ∀ init, List.Chain' (· ≤ ·) (init :: scanMax init ps) := by
  induction ps with
  | nil =>
      intro init
      simp [scanMax]
  | cons p ps ih =>
      intro init
      rw [scanMax, List.chain'_cons]
      exact ⟨Nat.le_max_left init p, ih (Nat.max init p)⟩

lemma scanMax_get (ps : List Nat) :
    ∀ init i (h : i < (scanMax init ps).length),
      (scanMax init ps).get ⟨i, h⟩
        = List.foldl Nat.max init (ps.take (i + 1)) := by
  induction ps with
  | nil =>
      intro init i h
      simp [scanMax] at h
  | cons p ps ih =>
      intro init i h
      cases i with
      | zero => simp [scanMax]
      | succ j =>
          have hj : j < (scanMax (Nat.max init p) ps).length := by
            simpa [scanMax] using h
          have := ih (Nat.max init p) j hj
          simpa [scanMax, List.take_cons] using this

lemma scanMax_chain_append (ps qs : List Nat) :
    ∀ init, List.Chain' (· ≤ ·)
      (init :: (scanMax init ps ++ scanMax (List.foldl Nat.max init ps) qs)) := by
  induction ps with
  | nil =>
      intro init
      simpa using scanMax_chain qs init
  | cons p ps ih =>
      intro init
      rw [scanMax, List.foldl_cons, List.cons_append, List.chain'_cons]
      exact ⟨Nat.le_max_left init p, ih (Nat.max init p)⟩

lemma processLeafBytes_decode_ok (dec : List Nat → Except Unit TreeLeaf)
    (owns : Nat → Note → Bool) (gnf : Note → Nat → Nat)
    (addrs : List KeyTuple) (st : SyncSt) (b : List Nat) (leaf : TreeLeaf)
    (h : dec b = Except.ok leaf) :
    (processLeafBytes dec owns gnf addrs st b).2.2 = none
    ∧ (processLeafBytes dec owns gnf addrs st b).1.lastPos
        = Nat.max st.lastPos leaf.note.pos
    ∧ (processLeafBytes dec owns gnf addrs st b).1.db.lastPos
        = some (Nat.max st.lastPos leaf.note.pos)
    ∧ posWrites (processLeafBytes dec owns gnf addrs st b).2.1
        = [Nat.max st.lastPos leaf.note.pos] := by
  cases hf : addrs.find? fun t => owns t.vk leaf.note with
  | none =>
      simp [processLeafBytes, h, hf, posWrites, Cache.insert_last_pos]
  | some t =>
      simp [processLeafBytes, h, hf, posWrites, Cache.insert_last_pos]

lemma processLeaves_decode_ok (dec : List Nat → Except Unit TreeLeaf)
    (owns : Nat → Note → Bool) (gnf : Note → Nat → Nat)
    (addrs : List KeyTuple) :
    ∀ (bs : List (List Nat)) (leaves : List TreeLeaf) (st : SyncSt),
      decodeAll dec bs = Except.ok leaves →
      (processLeaves dec owns gnf addrs st bs).2.2 = none
      ∧ posWrites (processLeaves dec owns gnf addrs st bs).2.1
          = scanMax st.lastPos (leaves.map fun l => l.note.pos)
      ∧ (processLeaves dec owns gnf addrs st bs).1.lastPos
          = List.foldl Nat.max st.lastPos (leaves.map fun l => l.note.pos)
      ∧ (bs = [] → (processLeaves dec owns gnf addrs st bs).1 = st)
      ∧ (bs ≠ [] → (processLeaves dec owns gnf addrs st bs).1.db.lastPos
          = some ((processLeaves dec owns gnf addrs st bs).1.lastPos)) := by
  intro bs
  induction bs with
  | nil =>
      intro leaves st h
      simp only [decodeAll] at h
      cases h
      simp [processLeaves, scanMax, posWrites]
  | cons b bsTail ih =>
      intro leaves st h
      simp only [decodeAll] at h
      cases hd : dec b with
      | error e => rw [hd] at h; cases h
      | ok leaf =>
          rw [hd] at h
          cases hrest : decodeAll dec bsTail with
          | error e => rw [hrest] at h; cases h
          | ok ls =>
              rw [hrest] at h
              cases h
              obtain ⟨he, hlp, hdb, hw⟩ :=
                processLeafBytes_decode_ok dec owns gnf addrs st b leaf hd
              have ihr := ih ls (processLeafBytes dec owns gnf addrs st b).1
                hrest
              simp only [processLeaves, he]
              refine ⟨ihr.1, ?_, ?_, ?_, ?_⟩
              · rw [posWrites_append, hw, ihr.2.1, hlp]
                simp [scanMax]
              · rw [ihr.2.2.1, hlp]
                simp
              · intro hfalse
                cases hfalse
              · intro _
                cases bsTail with
                | nil =>
                    have hst := ihr.2.2.2.1 rfl
                    rw [hst, hdb, hlp]
                | cons x xs =>
                    exact ihr.2.2.2.2 (List.cons_ne_nil x xs)

/-! ## Reconciliation frame lemmas -/

lemma moveStep_lastPos (db : DB) (psk n : Nat) :
    (moveStep db psk n).1.lastPos = db.lastPos := by
  cases h : db.get_cf (CfName.live psk) n with
  | none => simp [moveStep, h]
  | some v => simp [moveStep, h, lastPos_put_cf, lastPos_delete_cf]

lemma moveSpent_lastPos (psk : Nat) :
    ∀ (ns : List Nat) (db : DB),
      (moveSpent db psk ns).1.lastPos = db.lastPos := by
  intro ns
  induction ns with
  | nil =>
      intro db
      rfl
  | cons n ns ih =>
      intro db
      simp only [moveSpent]
      cases hs : (moveStep db psk n).2 with
      | some e => simpa using moveStep_lastPos db psk n
      | none =>
          simp only []
          rw [ih (moveStep db psk n).1, moveStep_lastPos]

lemma reconcileKey_frame (remote : List Nat → Except Error (List Nat))
    (db : DB) (psk : Nat) :
    (reconcileKey remote db psk).1.lastPos = db.lastPos
    ∧ posWrites (reconcileKey remote db psk).2.1 = [] := by
  cases hcf : db.cf_handle (CfName.live psk) with
  | none => simp [reconcileKey, hcf, posWrites]
  | some cf =>
      by_cases hemp : (cf.map Prod.fst).isEmpty
      · simp [reconcileKey, hcf, hemp, posWrites]
      · cases hsp : db.cf_handle (CfName.spent psk) with
        | none => simp [reconcileKey, hcf, hemp, hsp, posWrites]
        | some sp =>
            simp only [reconcileKey, hcf, hemp, hsp, Bool.false_eq_true,
              if_false, fetch_existing_nullifiers_remote]
            cases hrm : remote (cf.map Prod.fst) with
            | error e => simp [hemp, posWrites]
            | ok existing =>
                simp [hemp, posWrites, moveSpent_lastPos]

lemma reconcileAll_frame (remote : List Nat → Except Error (List Nat)) :
    ∀ (addrs : List KeyTuple) (db : DB),
      (reconcileAll remote addrs db).1.lastPos = db.lastPos
      ∧ posWrites (reconcileAll remote addrs db).2.1 = [] := by
  intro addrs
  induction addrs with
  | nil =>
      intro db
      exact ⟨rfl, rfl⟩
  | cons t ts ih =>
      intro db
      obtain ⟨h1, h2⟩ := reconcileKey_frame remote db t.psk
      simp only [reconcileAll]
      cases he : (reconcileKey remote db t.psk).2.2 with
      | some e => exact ⟨h1, h2⟩
      | none =>
          obtain ⟨h3, h4⟩ := ih (reconcileKey remote db t.psk).1
          exact ⟨by simp [h3, h1], by simp [posWrites_append, h2, h4]⟩

lemma posWrites_streamRequest (p : Nat) (l : List Ev) :
    posWrites (Ev.streamRequest p :: l) = posWrites l := by
  simp [posWrites]

lemma sync_db_pos (k : Nat) (dec : List Nat → Except Unit TreeLeaf)
    (owns : Nat → Note → Bool) (gnf : Note → Nat → Nat)
    (addrs : List KeyTuple) (remote : List Nat → Except Error (List Nat))
    (db : DB) (chunks : List (List Nat)) (leaves : List TreeLeaf)
    (h : decodeAll dec (chunksExact k chunks.flatten).1 = Except.ok leaves) :
    posWrites (sync_db k dec owns gnf addrs remote db
        (chunks.map Except.ok)).2.1
      = scanMax (db.lastPos.getD 0) (leaves.map fun l => l.note.pos)
    ∧ (sync_db k dec owns gnf addrs remote db
        (chunks.map Except.ok)).1.lastPos.getD 0
      = List.foldl Nat.max (db.lastPos.getD 0)
          (leaves.map fun l => l.note.pos) := by
  obtain ⟨he, hw, hlp, hnil, hcons⟩ := processLeaves_decode_ok dec owns gnf
    addrs (chunksExact k chunks.flatten).1 leaves ⟨db, db.lastPos.getD 0⟩ h
  simp only [sync_db, syncStream_all, Cache.last_pos, he]
  obtain ⟨hr1, hr2⟩ := reconcileAll_frame remote addrs
    (processLeaves dec owns gnf addrs ⟨db, db.lastPos.getD 0⟩
      (chunksExact k chunks.flatten).1).1.db
  constructor
  · rw [posWrites_streamRequest, posWrites_append, hw, hr2,
      List.append_nil]
  · rw [hr1]
    by_cases hbs : (chunksExact k chunks.flatten).1 = []
    · have hsame := hnil hbs
      have hleaves : leaves = [] := by
        rw [hbs] at h
        simp only [decodeAll] at h
        cases h
        rfl
      subst hleaves
      rw [hsame]
      simp
    · rw [hcons hbs, hlp]
      rfl

/-- C1: for every sequence of decoded note records processed by `sync_db`,
including sequences whose positions are non-increasing or out of order, the
values persisted through `insert_last_pos` form exactly the running maximum
of the previously persisted value (0 when none) and the record positions
seen so far (each write equals the fold of `max` over the prefix), and the
persisted value never decreases within a run nor across two consecutive
runs. -/
theorem sync_persisted_position_monotone
    (k : Nat) (dec : List Nat → Except Unit TreeLeaf)
    (owns : Nat → Note → Bool) (gnf : Note → Nat → Nat)
    (addrs : List KeyTuple)
    (remote remote2 : List Nat → Except Error (List Nat))
    (db : DB) (chunks chunks2 : List (List Nat))
    (leaves leaves2 : List TreeLeaf)
    (h1 : decodeAll dec (chunksExact k chunks.flatten).1 = Except.ok leaves)
    (h2 : decodeAll dec (chunksExact k chunks2.flatten).1
        = Except.ok leaves2) :
    posWrites (sync_db k dec owns gnf addrs remote db
        (chunks.map Except.ok)).2.1
      = scanMax (db.lastPos.getD 0) (leaves.map fun l => l.note.pos)
    ∧ (∀ i (hi : i < (posWrites (sync_db k dec owns gnf addrs remote db
          (chunks.map Except.ok)).2.1).length),
        (posWrites (sync_db k dec owns gnf addrs remote db
          (chunks.map Except.ok)).2.1).get ⟨i, hi⟩
          = List.foldl Nat.max (db.lastPos.getD 0)
              ((leaves.map fun l => l.note.pos).take (i + 1)))
    ∧ List.Chain' (· ≤ ·) (db.lastPos.getD 0 ::
        (posWrites (sync_db k dec owns gnf addrs remote db
            (chunks.map Except.ok)).2.1
          ++ posWrites (sync_db k dec owns gnf addrs remote2
              (sync_db k dec owns gnf addrs remote db
                (chunks.map Except.ok)).1
              (chunks2.map Except.ok)).2.1)) := by
  obtain ⟨hA, hB⟩ := sync_db_pos k dec owns gnf addrs remote db chunks
    leaves h1
  obtain ⟨hA2, _⟩ := sync_db_pos k dec owns gnf addrs remote2
    (sync_db k dec owns gnf addrs remote db (chunks.map Except.ok)).1
    chunks2 leaves2 h2
  refine ⟨hA, ?_, ?_⟩
  · intro i hi
    have hcast := List.get_of_eq hA ⟨i, hi⟩
    rw [hcast]
    exact scanMax_get (leaves.map fun l => l.note.pos) (db.lastPos.getD 0)
      i _
  · have hA2' : posWrites (sync_db k dec owns gnf addrs remote2
        (sync_db k dec owns gnf addrs remote db (chunks.map Except.ok)).1
        (chunks2.map Except.ok)).2.1
        = scanMax (List.foldl Nat.max (db.lastPos.getD 0)
            (leaves.map fun l => l.note.pos))
            (leaves2.map fun l => l.note.pos) := by
      rw [hA2, hB]
    rw [hA, hA2']
    exact scanMax_chain_append (leaves.map fun l => l.note.pos)
      (leaves2.map fun l => l.note.pos) (db.lastPos.getD 0)

/-- Witness for C1: a concrete two-record stream with decreasing positions
5, 3 persists the watermark values 5, 5. -/
theorem sync_persisted_position_monotone_witness :
    posWrites (sync_db 1 decByte ownsNone gnfSeven [] remoteEmpty
      ⟨[], none⟩ ([[5], [3]].map Except.ok)).2.1 = [5, 5] := by
  rw [(sync_persisted_position_monotone 1 decByte ownsNone gnfSeven []
    remoteEmpty remoteEmpty ⟨[], none⟩ [[5], [3]] [[4]]
    [⟨0, ⟨5, 0⟩⟩, ⟨0, ⟨3, 0⟩⟩] [⟨0, ⟨4, 0⟩⟩] rfl rfl).1]
  decide

/-- C2: delivering a byte stream split at arbitrary chunk boundaries
(including mid-record) gives exactly the same `sync_db` outcome as
delivering the whole stream as a single chunk, and when the bytes are the
concatenation of records of the fixed size `k`, the frames extracted by
the buffering loop are exactly those records, in order. -/
theorem sync_chunk_split_invariant
    (k : Nat) (dec : List Nat → Except Unit TreeLeaf)
    (owns : Nat → Note → Bool) (gnf : Note → Nat → Nat)
    (addrs : List KeyTuple) (remote : List Nat → Except Error (List Nat))
    (db : DB) (chunks records : List (List Nat)) :
    sync_db k dec owns gnf addrs remote db (chunks.map Except.ok)
      = sync_db k dec owns gnf addrs remote db [Except.ok chunks.flatten]
    ∧ ((∀ r ∈ records, r.length = k) → 0 < k →
        records.flatten = chunks.flatten →
        (chunksExact k chunks.flatten).1 = records) := by
  constructor
  · rw [show [Except.ok chunks.flatten]
        = [chunks.flatten].map (Except.ok (ε := Error)) from rfl]
    simp only [sync_db, syncStream_all, List.flatten_cons, List.flatten_nil,
      List.append_nil]
  · intro hlen hk hjoin
    rw [← hjoin, chunksExact_flatten k records hk hlen]

/-- Witness for C2: the bytes of records `[1,2]` and `[3,4]` delivered as
chunks `[1]` and `[2,3,4]` behave exactly like the single chunk
`[1,2,3,4]`, whose extracted frames are the two records. -/
theorem sync_chunk_split_invariant_witness :
    sync_db 2 decByte ownsNone gnfSeven [] remoteEmpty ⟨[], none⟩
        ([[1], [2, 3, 4]].map Except.ok)
      = sync_db 2 decByte ownsNone gnfSeven [] remoteEmpty ⟨[], none⟩
        [Except.ok [1, 2, 3, 4]]
    ∧ (chunksExact 2 [1, 2, 3, 4]).1 = [[1, 2], [3, 4]] := by
  have h := sync_chunk_split_invariant 2 decByte ownsNone gnfSeven []
    remoteEmpty ⟨[], none⟩ [[1], [2, 3, 4]] [[1, 2], [3, 4]]
  exact ⟨h.1, h.2 (by decide) (by decide) (by decide)⟩

lemma find?_first {p : KeyTuple → Bool} :
    ∀ (pre : List KeyTuple) (t : KeyTuple) (post : List KeyTuple),
      (∀ u ∈ pre, p u = false) → p t = true →
      List.find? p (pre ++ t :: post) = some t := by
  intro pre
  induction pre with
  | nil =>
      intro t post _ ht
      simp [List.find?_cons_of_pos, ht]
  | cons u us ih =>
      intro t post hpre ht
      have hu : p u = false := hpre u (by simp)
      rw [List.cons_append, List.find?_cons_of_neg _ (by simp [hu])]
      exact ih t post (fun v hv => hpre v (by simp [hv])) ht

/-- C3: a decoded record is inserted for at most one key, namely the first
tuple in iteration order whose view key owns the note (the loop breaks at
the first match); when no tuple owns it, nothing is cached but the running
maximum position is still advanced and persisted for that record. -/
theorem sync_first_match_insertion
    (dec : List Nat → Except Unit TreeLeaf) (owns : Nat → Note → Bool)
    (gnf : Note → Nat → Nat) (pre post : List KeyTuple) (t : KeyTuple)
    (addrs : List KeyTuple) (st : SyncSt) (b : List Nat) (leaf : TreeLeaf)
    (hdec : dec b = Except.ok leaf) :
    (addrs = pre ++ t :: post →
      (∀ u ∈ pre, owns u.vk leaf.note = false) →
      owns t.vk leaf.note = true →
      processLeafBytes dec owns gnf addrs st b
        = (⟨Cache.insert_last_pos
              (Cache.insert st.db t.psk leaf.block_height leaf.note
                (gnf leaf.note t.ssk))
              (Nat.max st.lastPos leaf.note.pos),
            Nat.max st.lastPos leaf.note.pos⟩,
           [Ev.insertNote t.psk (gnf leaf.note t.ssk),
            Ev.writePos (Nat.max st.lastPos leaf.note.pos)], none))
    ∧ ((∀ u ∈ addrs, owns u.vk leaf.note = false) →
      processLeafBytes dec owns gnf addrs st b
        = (⟨Cache.insert_last_pos st.db (Nat.max st.lastPos leaf.note.pos),
            Nat.max st.lastPos leaf.note.pos⟩,
           [Ev.writePos (Nat.max st.lastPos leaf.note.pos)], none))
    ∧ countInserts (processLeafBytes dec owns gnf addrs st b).2.1 ≤ 1 := by
  refine ⟨?_, ?_, ?_⟩
  · intro ha hpre ht
    subst ha
    have hf := find?_first pre t post hpre ht
    simp [processLeafBytes, hdec, hf]
  · intro hnone
    have hf : addrs.find? (fun u => owns u.vk leaf.note) = none :=
      List.find?_eq_none.mpr fun x hx => by simp [hnone x hx]
    simp [processLeafBytes, hdec, hf]
  · cases hf : addrs.find? fun u => owns u.vk leaf.note with
    | none => simp [processLeafBytes, hdec, hf, countInserts]
    | some u => simp [processLeafBytes, hdec, hf, countInserts, List.filter]

/-- Witness for C3: with key tuples `(1,1,1), (2,2,2)` and a note owned
only by view key 2, the record is inserted for public key 2 (nullifier 7)
and the watermark write follows. -/
theorem sync_first_match_insertion_witness :
    processLeafBytes decByte ownsVkTwo gnfSeven [⟨1, 1, 1⟩, ⟨2, 2, 2⟩]
        ⟨⟨[], none⟩, 0⟩ [4]
      = (⟨Cache.insert_last_pos (Cache.insert ⟨[], none⟩ 2 0 ⟨4, 0⟩ 7) 4, 4⟩,
         [Ev.insertNote 2 7, Ev.writePos 4], none) :=
  (sync_first_match_insertion decByte ownsVkTwo gnfSeven
    [⟨1, 1, 1⟩] [] ⟨2, 2, 2⟩ [⟨1, 1, 1⟩, ⟨2, 2, 2⟩] ⟨⟨[], none⟩, 0⟩ [4]
    ⟨0, ⟨4, 0⟩⟩ rfl).1 rfl (by decide) (by decide)

/-- C6 counterexample: in this concrete `sync_db` run the only record is
owned by no key, so no note insertion happens, yet a position value is
still written to the cache — refuting that a position is written exactly
when a record was matched and inserted. -/
theorem sync_pos_write_without_insertion :
    Ev.writePos 5 ∈ (sync_db 1 decByte ownsNone gnfSeven [addr0]
        remoteEmpty ⟨[], none⟩ [Except.ok [5]]).2.1
    ∧ countInserts (sync_db 1 decByte ownsNone gnfSeven [addr0]
        remoteEmpty ⟨[], none⟩ [Except.ok [5]]).2.1 = 0 := by
  decide

/-- C6 (amended): the position cache is persisted exactly once per
successfully decoded record — whether or not any key matched — as the last
action of the record's iteration (so on a match it follows the note
insertion, of which there is at most one); a record that fails to decode
persists nothing. -/
theorem sync_pos_write_every_record
    (dec : List Nat → Except Unit TreeLeaf) (owns : Nat → Note → Bool)
    (gnf : Note → Nat → Nat) (addrs : List KeyTuple) (st : SyncSt)
    (b : List Nat) :
    (∀ leaf, dec b = Except.ok leaf →
      posWrites (processLeafBytes dec owns gnf addrs st b).2.1
          = [Nat.max st.lastPos leaf.note.pos]
      ∧ (processLeafBytes dec owns gnf addrs st b).2.1.getLast?
          = some (Ev.writePos (Nat.max st.lastPos leaf.note.pos))
      ∧ countInserts (processLeafBytes dec owns gnf addrs st b).2.1 ≤ 1)
    ∧ (∀ e, dec b = Except.error e →
        (processLeafBytes dec owns gnf addrs st b).2.1 = []) := by
  constructor
  · intro leaf h
    cases hf : addrs.find? fun u => owns u.vk leaf.note with
    | none =>
        simp [processLeafBytes, h, hf, posWrites, countInserts, List.filter]
    | some t =>
        simp [processLeafBytes, h, hf, posWrites, countInserts, List.filter]
  · intro e h
    simp [processLeafBytes, h]

/-- Witness for the amended C6: the unmatched record of position 5 yields
exactly one position write, placed last, with no insertion required. -/
theorem sync_pos_write_every_record_witness :
    posWrites (processLeafBytes decByte ownsNone gnfSeven [addr0]
        ⟨⟨[], none⟩, 0⟩ [5]).2.1 = [5]
    ∧ (processLeafBytes decByte ownsNone gnfSeven [addr0]
        ⟨⟨[], none⟩, 0⟩ [5]).2.1.getLast? = some (Ev.writePos 5)
    ∧ countInserts (processLeafBytes decByte ownsNone gnfSeven [addr0]
        ⟨⟨[], none⟩, 0⟩ [5]).2.1 ≤ 1 :=
  (sync_pos_write_every_record decByte ownsNone gnfSeven [addr0]
    ⟨⟨[], none⟩, 0⟩ [5]).1 ⟨0, ⟨5, 0⟩⟩ rfl

/-- C9: a malformed record aborts the run with `Error.Rkyv` at that
record: the final cache is exactly the cache after the earlier, complete
iterations (their notes and position writes are kept), nothing derived
from the malformed record or from any later record is persisted, and the
reconciliation phase is not reached. -/
theorem sync_malformed_record_aborts
    (k : Nat) (dec : List Nat → Except Unit TreeLeaf)
    (owns : Nat → Note → Bool) (gnf : Note → Nat → Nat)
    (addrs : List KeyTuple) (remote : List Nat → Except Error (List Nat))
    (db : DB) (chunks good rest : List (List Nat)) (bad : List Nat)
    (leaves : List TreeLeaf)
    (hsplit : (chunksExact k chunks.flatten).1 = good ++ bad :: rest)
    (hgood : decodeAll dec good = Except.ok leaves)
    (hbad : dec bad = Except.error ()) :
    sync_db k dec owns gnf addrs remote db (chunks.map Except.ok)
      = ((processLeaves dec owns gnf addrs ⟨db, db.lastPos.getD 0⟩
            good).1.db,
         Ev.streamRequest (posToSearch db)
           :: (processLeaves dec owns gnf addrs ⟨db, db.lastPos.getD 0⟩
            good).2.1,
         some Error.Rkyv) := by
  have hP := (processLeaves_decode_ok dec owns gnf addrs good leaves
    ⟨db, db.lastPos.getD 0⟩ hgood).1
  simp only [sync_db, syncStream_all, Cache.last_pos]
  rw [hsplit, processLeaves_append_ok dec owns gnf addrs good (bad :: rest)
    ⟨db, db.lastPos.getD 0⟩ hP]
  simp only [processLeaves, processLeafBytes, hbad, List.append_nil]

/-- Witness for C9: the stream `[5],[9],[4]` (frame size 1) whose second
record is malformed persists only the first record's effects and surfaces
`Error.Rkyv`. -/
theorem sync_malformed_record_aborts_witness :
    sync_db 1 decMarked ownsNone gnfSeven [] remoteEmpty ⟨[], none⟩
        ([[5, 9, 4]].map Except.ok)
      = ((processLeaves decMarked ownsNone gnfSeven [] ⟨⟨[], none⟩, 0⟩
            [[5]]).1.db,
         Ev.streamRequest 0
           :: (processLeaves decMarked ownsNone gnfSeven [] ⟨⟨[], none⟩, 0⟩
            [[5]]).2.1,
         some Error.Rkyv) :=
  sync_malformed_record_aborts 1 decMarked ownsNone gnfSeven [] remoteEmpty
    ⟨[], none⟩ [[5, 9, 4]] [[5]] [[4]] [9] [⟨0, ⟨5, 0⟩⟩] (by decide) rfl rfl

/-! ## Reconciliation characterization -/

lemma live_ne_spent (a b : Nat) : CfName.live a ≠ CfName.spent b :=
  fun h => CfName.noConfusion h

lemma spent_ne_live (a b : Nat) : CfName.spent a ≠ CfName.live b :=
  fun h => CfName.noConfusion h

lemma map_fst_isEmpty_false {cf : Cf} (h : cf ≠ []) :
    (cf.map Prod.fst).isEmpty = false := by
  cases cf with
  | nil => exact absurd rfl h
  | cons x xs => simp

lemma moveStep_none (db : DB) (psk n : Nat)
    (h : db.get_cf (CfName.live psk) n = none) :
    moveStep db psk n = (db, some (Error.panic msgNoteMissing)) := by
  simp [moveStep, h]

lemma moveStep_some (db : DB) (psk n : Nat) (v : Stored)
    (h : db.get_cf (CfName.live psk) n = some v) :
    moveStep db psk n
      = ((db.put_cf (CfName.spent psk) n v).delete_cf (CfName.live psk) n,
         none) := by
  simp [moveStep, h]

lemma moveStep_get (db : DB) (psk n : Nat) (v : Stored)
    (h : db.get_cf (CfName.live psk) n = some v) :
    (∀ q, (moveStep db psk n).1.get_cf (CfName.live psk) q
        = if n = q then none else db.get_cf (CfName.live psk) q)
    ∧ (∀ q, (moveStep db psk n).1.get_cf (CfName.spent psk) q
        = if n = q then some v else db.get_cf (CfName.spent psk) q)
    ∧ (∀ c, c ≠ CfName.live psk → c ≠ CfName.spent psk →
        (moveStep db psk n).1.cf_handle c = db.cf_handle c) := by
  rw [moveStep_some db psk n v h]
  refine ⟨?_, ?_, ?_⟩
  · intro q
    rw [get_cf_delete_cf, if_pos rfl, get_cf_put_cf,
      if_neg (spent_ne_live psk psk)]
  · intro q
    rw [get_cf_delete_cf, if_neg (live_ne_spent psk psk), get_cf_put_cf,
      if_pos rfl]
  · intro c hc1 hc2
    rw [cf_handle_delete_cf, if_neg fun hh => hc1 hh.symm,
      cf_handle_put_cf, if_neg fun hh => hc2 hh.symm]

lemma moveSpent_spec (psk : Nat) :
    ∀ (ns : List Nat) (db : DB), ns.Nodup →
      (∀ n ∈ ns, (db.get_cf (CfName.live psk) n).isSome = true) →
      (moveSpent db psk ns).2 = none
      ∧ (∀ q, (moveSpent db psk ns).1.get_cf (CfName.live psk) q
            = if q ∈ ns then none else db.get_cf (CfName.live psk) q)
      ∧ (∀ q, (moveSpent db psk ns).1.get_cf (CfName.spent psk) q
            = if q ∈ ns then db.get_cf (CfName.live psk) q
              else db.get_cf (CfName.spent psk) q)
      ∧ (∀ c, c ≠ CfName.live psk → c ≠ CfName.spent psk →
          (moveSpent db psk ns).1.cf_handle c = db.cf_handle c)
      ∧ (moveSpent db psk ns).1.lastPos = db.lastPos := by
  intro ns
  induction ns with
  | nil =>
      intro db _ _
      refine ⟨rfl, ?_, ?_, fun c _ _ => rfl, rfl⟩
      · intro q
        simp [moveSpent]
      · intro q
        simp [moveSpent]
  | cons n ns ih =>
      intro db hnd hmem
      obtain ⟨v, hv⟩ := Option.isSome_iff_exists.mp
        (hmem n (List.mem_cons_self n ns))
      obtain ⟨hgl, hgs, hgc⟩ := moveStep_get db psk n v hv
      have hnotin : n ∉ ns := (List.nodup_cons.mp hnd).1
      have hmem2 : ∀ m ∈ ns, ((moveStep db psk n).1.get_cf
          (CfName.live psk) m).isSome = true := by
        intro m hm
        rw [hgl m, if_neg (fun (he : n = m) => hnotin (by rw [he]; exact hm))]
        exact hmem m (List.mem_cons_of_mem n hm)
      obtain ⟨ih1, ih2, ih3, ih4, ih5⟩ := ih (moveStep db psk n).1
        (List.nodup_cons.mp hnd).2 hmem2
      have hstep : moveSpent db psk (n :: ns)
          = moveSpent (moveStep db psk n).1 psk ns := by
        simp only [moveSpent, moveStep_some db psk n v hv]
      refine ⟨by rw [hstep]; exact ih1, ?_, ?_, ?_, ?_⟩
      · intro q
        rw [hstep, ih2 q]
        by_cases hq : q ∈ ns
        · simp [hq]
        · rw [if_neg hq, hgl q]
          by_cases hqn : q = n
          · subst hqn
            simp
          · rw [if_neg fun he => hqn he.symm,
              if_neg (by simp [hq, hqn])]
      · intro q
        rw [hstep, ih3 q]
        by_cases hq : q ∈ ns
        · rw [if_pos hq, if_pos (List.mem_cons_of_mem n hq), hgl q,
            if_neg (fun (he : n = q) => hnotin (by rw [he]; exact hq))]
        · rw [if_neg hq, hgs q]
          by_cases hqn : q = n
          · subst hqn
            rw [if_pos rfl, if_pos (List.mem_cons_self q ns), hv]
          · rw [if_neg fun he => hqn he.symm,
              if_neg (by simp [hq, hqn])]
      · intro c hc1 hc2
        rw [hstep, ih4 c hc1 hc2, hgc c hc1 hc2]
      · rw [hstep, ih5, moveStep_lastPos]

/-- C4: when every remotely confirmed nullifier is present in the live
partition, reconciliation for a key queries the node exactly once with the
full live set and moves exactly the confirmed entries (values unchanged)
from live to spent; an empty or absent live partition completes with no
remote call and no change; and `fetch_existing_nullifiers_remote` applied
to an empty list returns an empty result with no round-trip. -/
theorem sync_reconciliation_correct
    (remote : List Nat → Except Error (List Nat)) (db : DB) (psk : Nat)
    (cf : Cf) (existing : List Nat)
    (hcf : db.cf_handle (CfName.live psk) = some cf)
    (hne : cf ≠ [])
    (hsp : (db.cf_handle (CfName.spent psk)).isSome = true)
    (hrm : remote (cf.map Prod.fst) = Except.ok existing)
    (hnd : existing.Nodup)
    (hmem : ∀ n ∈ existing, (db.get_cf (CfName.live psk) n).isSome = true) :
    (reconcileKey remote db psk).2.2 = none
    ∧ (reconcileKey remote db psk).2.1 = [Ev.remoteCall (cf.map Prod.fst)]
    ∧ (∀ q, (reconcileKey remote db psk).1.get_cf (CfName.live psk) q
          = if q ∈ existing then none
            else db.get_cf (CfName.live psk) q)
    ∧ (∀ q, (reconcileKey remote db psk).1.get_cf (CfName.spent psk) q
          = if q ∈ existing then db.get_cf (CfName.live psk) q
            else db.get_cf (CfName.spent psk) q)
    ∧ (∀ (remote2 : List Nat → Except Error (List Nat)) (db2 : DB)
        (psk2 : Nat), db2.cf_handle (CfName.live psk2) = some [] →
        reconcileKey remote2 db2 psk2 = (db2, [], none))
    ∧ (∀ (remote2 : List Nat → Except Error (List Nat)) (db2 : DB)
        (psk2 : Nat), db2.cf_handle (CfName.live psk2) = none →
        reconcileKey remote2 db2 psk2 = (db2, [], none))
    ∧ (∀ r : List Nat → Except Error (List Nat),
        fetch_existing_nullifiers_remote r [] = (Except.ok [], [])) := by
  obtain ⟨sp, hsp2⟩ := Option.isSome_iff_exists.mp hsp
  have hkey : reconcileKey remote db psk
      = ((moveSpent db psk existing).1, [Ev.remoteCall (cf.map Prod.fst)],
         (moveSpent db psk existing).2) := by
    simp only [reconcileKey, hcf, map_fst_isEmpty_false hne,
      Bool.false_eq_true, if_false, hsp2,
      fetch_existing_nullifiers_remote, hrm]
  obtain ⟨hm1, hm2, hm3, _, _⟩ := moveSpent_spec psk existing db hnd hmem
  refine ⟨?_, ?_, ?_, ?_, ?_, ?_, ?_⟩
  · rw [hkey]
    exact hm1
  · rw [hkey]
  · intro q
    rw [hkey]
    exact hm2 q
  · intro q
    rw [hkey]
    exact hm3 q
  · intro remote2 db2 psk2 h2
    simp [reconcileKey, h2]
  · intro remote2 db2 psk2 h2
    simp [reconcileKey, h2]
  · intro r
    rfl

/-- Witness for C4: live partition `{1, 2, 3}` with the remote confirming
`{2}` yields live `{1, 3}` and spent `{2}` after one remote call. -/
theorem sync_reconciliation_correct_witness :
    (reconcileKey remoteTwo dbABC 0).2.2 = none
    ∧ (reconcileKey remoteTwo dbABC 0).2.1 = [Ev.remoteCall [1, 2, 3]]
    ∧ (reconcileKey remoteTwo dbABC 0).1.get_cf (CfName.live 0) 1
        = some (mkStored 1)
    ∧ (reconcileKey remoteTwo dbABC 0).1.get_cf (CfName.live 0) 2 = none
    ∧ (reconcileKey remoteTwo dbABC 0).1.get_cf (CfName.live 0) 3
        = some (mkStored 3)
    ∧ (reconcileKey remoteTwo dbABC 0).1.get_cf (CfName.spent 0) 2
        = some (mkStored 2)
    ∧ fetch_existing_nullifiers_remote remoteTwo [] = (Except.ok [], []) := by
  have h := sync_reconciliation_correct remoteTwo dbABC 0
    [(1, mkStored 1), (2, mkStored 2), (3, mkStored 3)] [2] rfl
    (by decide) rfl rfl (by decide) (by decide)
  refine ⟨h.1, ?_, ?_, ?_, ?_, ?_, h.2.2.2.2.2.2 remoteTwo⟩
  · simpa using h.2.1
  · simpa using h.2.2.1 1
  · simpa using h.2.2.1 2
  · simpa using h.2.2.1 3
  · simpa using h.2.2.2.1 2

/-- C7: migrating a nullifier that is present in the live partition removes
the entry from live and re-inserts it, unmodified, into spent under the
same key; migrating a nullifier absent from live fails with the Not-Found
panic `msgNoteMissing`, which is an error of the reconciliation pass (not
silently ignored) and propagates out of the per-key loop to the caller of
sync. -/
theorem sync_move_absent_not_found
    (db : DB) (psk n : Nat) (rest : List Nat) (cf : Cf)
    (remote : List Nat → Except Error (List Nat)) :
    (∀ v, db.get_cf (CfName.live psk) n = some v →
      moveStep db psk n
        = ((db.put_cf (CfName.spent psk) n v).delete_cf (CfName.live psk) n,
           none)
      ∧ (moveStep db psk n).1.get_cf (CfName.live psk) n = none
      ∧ (moveStep db psk n).1.get_cf (CfName.spent psk) n = some v)
    ∧ (db.get_cf (CfName.live psk) n = none →
      moveStep db psk n = (db, some (Error.panic msgNoteMissing)))
    ∧ (db.cf_handle (CfName.live psk) = some cf → cf ≠ [] →
      (db.cf_handle (CfName.spent psk)).isSome = true →
      remote (cf.map Prod.fst) = Except.ok (n :: rest) →
      db.get_cf (CfName.live psk) n = none →
      reconcileKey remote db psk
        = (db, [Ev.remoteCall (cf.map Prod.fst)],
           some (Error.panic msgNoteMissing)))
    ∧ (∀ (t : KeyTuple) (ts : List KeyTuple) (db2 : DB) (e : Error),
        (reconcileKey remote db2 t.psk).2.2 = some e →
        (reconcileAll remote (t :: ts) db2).2.2 = some e) := by
  refine ⟨?_, moveStep_none db psk n, ?_, ?_⟩
  · intro v hv
    obtain ⟨hgl, hgs, _⟩ := moveStep_get db psk n v hv
    refine ⟨moveStep_some db psk n v hv, ?_, ?_⟩
    · rw [hgl n, if_pos rfl]
    · rw [hgs n, if_pos rfl]
  · intro hcf hne hsp hrm habs
    obtain ⟨sp, hsp2⟩ := Option.isSome_iff_exists.mp hsp
    simp only [reconcileKey, hcf, map_fst_isEmpty_false hne,
      Bool.false_eq_true, if_false, hsp2,
      fetch_existing_nullifiers_remote, hrm, moveSpent,
      moveStep_none db psk n habs]
  · intro t ts db2 e he
    simp [reconcileAll, he]

/-- Witness for C7: in the live partition `{1, 2, 3}`, moving present
nullifier 2 migrates it to spent; moving absent nullifier 9 fails with the
Not-Found panic, and a remote reply confirming 9 makes the whole per-key
reconciliation surface that panic. -/
theorem sync_move_absent_not_found_witness :
    (moveStep dbABC 0 2).1.get_cf (CfName.live 0) 2 = none
    ∧ (moveStep dbABC 0 2).1.get_cf (CfName.spent 0) 2 = some (mkStored 2)
    ∧ moveStep dbABC 0 9 = (dbABC, some (Error.panic msgNoteMissing))
    ∧ reconcileKey remoteNine dbABC 0
        = (dbABC, [Ev.remoteCall [1, 2, 3]],
           some (Error.panic msgNoteMissing)) := by
  have h := sync_move_absent_not_found dbABC 0 9 [] 
    [(1, mkStored 1), (2, mkStored 2), (3, mkStored 3)] remoteNine
  have h2 := (sync_move_absent_not_found dbABC 0 2 [] 
    [(1, mkStored 1), (2, mkStored 2), (3, mkStored 3)] remoteNine).1
    (mkStored 2) rfl
  refine ⟨h2.2.1, h2.2.2, h.2.1 rfl, ?_⟩
  have h3 := h.2.2.1 rfl (by decide) rfl rfl rfl
  simpa using h3

/-- C8 (amended): an absent live-partition handle is treated as the
partition being empty — reconciliation for that key completes without
error, remote call, or migration (likewise when the handle exists but the
partition is empty); the spent-partition handle, however, is only looked
up once the live partition is non-empty, and its absence is a panic
(`msgSpentCf`) that aborts reconciliation before any remote call, not an
empty-partition treatment. -/
theorem sync_partition_handle_semantics
    (remote : List Nat → Except Error (List Nat)) (db : DB) (psk : Nat)
    (cf : Cf) :
    (db.cf_handle (CfName.live psk) = none →
      reconcileKey remote db psk = (db, [], none))
    ∧ (db.cf_handle (CfName.live psk) = some [] →
      reconcileKey remote db psk = (db, [], none))
    ∧ (db.cf_handle (CfName.live psk) = some cf → cf ≠ [] →
      db.cf_handle (CfName.spent psk) = none →
      reconcileKey remote db psk
        = (db, [], some (Error.panic msgSpentCf))) := by
  refine ⟨?_, ?_, ?_⟩
  · intro h
    simp [reconcileKey, h]
  · intro h
    simp [reconcileKey, h]
  · intro hcf hne hsp
    simp only [reconcileKey, hcf, map_fst_isEmpty_false hne,
      Bool.false_eq_true, if_false, hsp]

/-- C8 counterexample: a cache whose live partition for key 0 is non-empty
while the spent handle is absent makes reconciliation fail with the
`msgSpentCf` panic instead of treating the absent spent partition as
empty and completing without error. -/
theorem sync_spent_handle_missing_errors :
    (reconcileKey remoteEmpty dbNoSpent 0).2.2
        = some (Error.panic msgSpentCf)
    ∧ (reconcileKey remoteEmpty dbNoSpent 0).2.1 = [] :=
  ⟨rfl, rfl⟩

/-- Witness for the amended C8: an absent live handle (key 0 of
`dbSpent9`) reconciles to no change and no error, while the absent spent
handle of `dbNoSpent` (live non-empty) panics. -/
theorem sync_partition_handle_semantics_witness :
    reconcileKey remoteEmpty dbSpent9 0 = (dbSpent9, [], none)
    ∧ reconcileKey remoteEmpty dbNoSpent 0
        = (dbNoSpent, [], some (Error.panic msgSpentCf)) :=
  ⟨(sync_partition_handle_semantics remoteEmpty dbSpent9 0 []).1 rfl,
   (sync_partition_handle_semantics remoteEmpty dbNoSpent 0
     [(5, mkStored 5)]).2.2 rfl (by decide) rfl⟩

/-- C10: the compile-time computation accepts an override `v` exactly when
`5 < v ≤ 25` (yielding `v`); larger values panic with the message that
(incorrectly) claims a 255 bound, values `≤ 5` panic as too small,
unparsable values panic as invalid, and no override yields 25 — so every
successful outcome lies in `[6, 25]`. -/
theorem max_addresses_bounds (env : Option (Option Nat)) (v : Nat) :
    (get_max_addresses env = Except.ok v → 6 ≤ v ∧ v ≤ 25)
    ∧ (env = none → get_max_addresses env = Except.ok 25)
    ∧ (∀ e, env = some (some e) →
        ((5 < e ∧ e ≤ 25) ↔ get_max_addresses env = Except.ok e))
    ∧ (∀ e, env = some (some e) → 25 < e →
        get_max_addresses env = Except.error msgMaxAddrTooLarge)
    ∧ (∀ e, env = some (some e) → e ≤ 5 →
        get_max_addresses env = Except.error msgMaxAddrTooSmall)
    ∧ (env = some none →
        get_max_addresses env = Except.error msgMaxAddrInvalid) := by
  refine ⟨?_, ?_, ?_, ?_, ?_, ?_⟩
  · intro h
    match env with
    | none =>
        simp only [get_max_addresses, DEFAULT_MAX_ADDRESSES,
          Except.ok.injEq] at h
        omega
    | some none => simp [get_max_addresses] at h
    | some (some e) =>
        simp only [get_max_addresses, DEFAULT_MAX_ADDRESSES] at h
        split at h
        · cases h
        · split at h
          · simp only [Except.ok.injEq] at h
            omega
          · cases h
  · intro h
    subst h
    rfl
  · intro e h
    subst h
    constructor
    · intro hb
      simp only [get_max_addresses, DEFAULT_MAX_ADDRESSES]
      rw [if_neg (by omega), if_pos (by omega)]
    · intro h
      simp only [get_max_addresses, DEFAULT_MAX_ADDRESSES] at h
      split at h
      · cases h
      · split at h
        · omega
        · cases h
  · intro e h hgt
    subst h
    simp only [get_max_addresses, DEFAULT_MAX_ADDRESSES]
    rw [if_pos (by omega)]
  · intro e h hle
    subst h
    simp only [get_max_addresses, DEFAULT_MAX_ADDRESSES]
    rw [if_neg (by omega), if_neg (by omega)]
  · intro h
    subst h
    rfl

/-- Witness for C10: override 10 is accepted, no override yields 25, and
26, 5 and an unparsable value panic with the respective messages. -/
theorem max_addresses_bounds_witness :
    get_max_addresses (some (some 10)) = Except.ok 10
    ∧ get_max_addresses none = Except.ok 25
    ∧ get_max_addresses (some (some 26)) = Except.error msgMaxAddrTooLarge
    ∧ get_max_addresses (some (some 5)) = Except.error msgMaxAddrTooSmall
    ∧ get_max_addresses (some none) = Except.error msgMaxAddrInvalid :=
  ⟨((max_addresses_bounds (some (some 10)) 10).2.2.1 10 rfl).mp
      (by omega),
   (max_addresses_bounds none 0).2.1 rfl,
   (max_addresses_bounds (some (some 26)) 0).2.2.2.1 26 rfl (by omega),
   (max_addresses_bounds (some (some 5)) 0).2.2.2.2.1 5 rfl (by omega),
   (max_addresses_bounds (some none) 0).2.2.2.2.2 rfl⟩

/-! ## Disjointness preservation -/

lemma get_cf_eq_of_handle {db db2 : DB} {c : CfName}
    (h : db.cf_handle c = db2.cf_handle c) (m : Nat) :
    db.get_cf c m = db2.get_cf c m := by
  simp [DB.get_cf, h]

lemma insert_spent_handle (db : DB) (psk hh : Nat) (note : Note) (nf : Nat)
    (q : Nat) :
    (Cache.insert db psk hh note nf).cf_handle (CfName.spent q)
      = db.cf_handle (CfName.spent q) := by
  rw [Cache.insert, cf_handle_put_cf, if_neg (live_ne_spent psk q)]

lemma insert_disj (db : DB) (psk hh : Nat) (note : Note) (nf : Nat)
    (hfresh : db.get_cf (CfName.spent psk) nf = none)
    (hd : ∀ q, Disj db q) :
    ∀ q, Disj (Cache.insert db psk hh note nf) q := by
  intro q m hm
  rw [Cache.insert, get_cf_put_cf] at hm
  rw [Cache.insert, get_cf_put_cf, if_neg (live_ne_spent psk q)]
  by_cases hpq : psk = q
  · subst hpq
    rw [if_pos rfl] at hm
    by_cases hnm : nf = m
    · subst hnm
      exact hfresh
    · rw [if_neg hnm] at hm
      exact hd psk m hm
  · rw [if_neg (by simp [hpq])] at hm
    exact hd q m hm

lemma insert_last_pos_disj (db : DB) (p : Nat) (hd : ∀ q, Disj db q) :
    ∀ q, Disj (Cache.insert_last_pos db p) q := by
  intro q m hm
  rw [get_cf_insert_last_pos] at hm
  rw [get_cf_insert_last_pos]
  exact hd q m hm

lemma processLeafBytes_disj (dec : List Nat → Except Unit TreeLeaf)
    (owns : Nat → Note → Bool) (gnf : Note → Nat → Nat)
    (addrs : List KeyTuple) (db0 : DB) (st : SyncSt) (b : List Nat)
    (hfresh : ∀ b2 leaf t, dec b2 = Except.ok leaf →
      addrs.find? (fun a => owns a.vk leaf.note) = some t →
      db0.get_cf (CfName.spent t.psk) (gnf leaf.note t.ssk) = none)
    (hsp : ∀ q, st.db.cf_handle (CfName.spent q)
        = db0.cf_handle (CfName.spent q))
    (hd : ∀ q, Disj st.db q) :
    (∀ q, (processLeafBytes dec owns gnf addrs st b).1.db.cf_handle
        (CfName.spent q) = db0.cf_handle (CfName.spent q))
    ∧ (∀ q, Disj (processLeafBytes dec owns gnf addrs st b).1.db q) := by
  cases hdec : dec b with
  | error e =>
      simp only [processLeafBytes, hdec]
      exact ⟨hsp, hd⟩
  | ok leaf =>
      cases hf : addrs.find? fun a => owns a.vk leaf.note with
      | none =>
          simp only [processLeafBytes, hdec, hf]
          exact ⟨fun q => hsp q, fun q => insert_last_pos_disj _ _ hd q⟩
      | some t =>
          simp only [processLeafBytes, hdec, hf]
          have hfr : st.db.get_cf (CfName.spent t.psk)
              (gnf leaf.note t.ssk) = none := by
            rw [get_cf_eq_of_handle (hsp t.psk)]
            exact hfresh b leaf t hdec hf
          refine ⟨?_, ?_⟩
          · intro q
            rw [cf_handle_insert_last_pos, insert_spent_handle]
            exact hsp q
          · intro q
            exact insert_last_pos_disj _ _
              (insert_disj st.db t.psk leaf.block_height leaf.note
                (gnf leaf.note t.ssk) hfr hd) q

lemma processLeaves_disj (dec : List Nat → Except Unit TreeLeaf)
    (owns : Nat → Note → Bool) (gnf : Note → Nat → Nat)
    (addrs : List KeyTuple) (db0 : DB)
    (hfresh : ∀ b2 leaf t, dec b2 = Except.ok leaf →
      addrs.find? (fun a => owns a.vk leaf.note) = some t →
      db0.get_cf (CfName.spent t.psk) (gnf leaf.note t.ssk) = none) :
    ∀ (bs : List (List Nat)) (st : SyncSt),
      (∀ q, st.db.cf_handle (CfName.spent q)
          = db0.cf_handle (CfName.spent q)) →
      (∀ q, Disj st.db q) →
      (∀ q, (processLeaves dec owns gnf addrs st bs).1.db.cf_handle
          (CfName.spent q) = db0.cf_handle (CfName.spent q))
      ∧ (∀ q, Disj (processLeaves dec owns gnf addrs st bs).1.db q) := by
  intro bs
  induction bs with
  | nil =>
      intro st hsp hd
      exact ⟨hsp, hd⟩
  | cons b bsTail ih =>
      intro st hsp hd
      obtain ⟨hsp1, hd1⟩ := processLeafBytes_disj dec owns gnf addrs db0
        st b hfresh hsp hd
      simp only [processLeaves]
      cases he : (processLeafBytes dec owns gnf addrs st b).2.2 with
      | some e => exact ⟨hsp1, hd1⟩
      | none => exact ih (processLeafBytes dec owns gnf addrs st b).1 hsp1 hd1

lemma syncStream_disj (k : Nat) (dec : List Nat → Except Unit TreeLeaf)
    (owns : Nat → Note → Bool) (gnf : Note → Nat → Nat)
    (addrs : List KeyTuple) (db0 : DB)
    (hfresh : ∀ b2 leaf t, dec b2 = Except.ok leaf →
      addrs.find? (fun a => owns a.vk leaf.note) = some t →
      db0.get_cf (CfName.spent t.psk) (gnf leaf.note t.ssk) = none) :
    ∀ (chunks : List (Except Error (List Nat))) (st : SyncSt)
      (buffer : List Nat),
      (∀ q, st.db.cf_handle (CfName.spent q)
          = db0.cf_handle (CfName.spent q)) →
      (∀ q, Disj st.db q) →
      (∀ q, (syncStream k dec owns gnf addrs st buffer chunks).1.db.cf_handle
          (CfName.spent q) = db0.cf_handle (CfName.spent q))
      ∧ (∀ q, Disj (syncStream k dec owns gnf addrs st buffer chunks).1.db q) := by
  intro chunks
  induction chunks with
  | nil =>
      intro st buffer hsp hd
      exact ⟨hsp, hd⟩
  | cons c cs ih =>
      intro st buffer hsp hd
      cases c with
      | error e => exact ⟨hsp, hd⟩
      | ok chunk =>
          obtain ⟨hsp1, hd1⟩ := processLeaves_disj dec owns gnf addrs db0
            hfresh (chunksExact k (buffer ++ chunk)).1 st hsp hd
          simp only [syncStream]
          cases he : (processLeaves dec owns gnf addrs st
              (chunksExact k (buffer ++ chunk)).1).2.2 with
          | some e => exact ⟨hsp1, hd1⟩
          | none =>
              exact ih (processLeaves dec owns gnf addrs st
                  (chunksExact k (buffer ++ chunk)).1).1
                (chunksExact k (buffer ++ chunk)).2 hsp1 hd1

lemma moveStep_disj (db : DB) (psk n : Nat) (hd : ∀ q, Disj db q) :
    (∀ q, Disj (moveStep db psk n).1 q)
    ∧ (∀ q m v, db.get_cf (CfName.spent q) m = some v →
        (moveStep db psk n).1.get_cf (CfName.spent q) m = some v) := by
  cases hv : db.get_cf (CfName.live psk) n with
  | none =>
      rw [moveStep_none db psk n hv]
      exact ⟨hd, fun q m v h => h⟩
  | some v =>
      obtain ⟨hgl, hgs, hgc⟩ := moveStep_get db psk n v hv
      constructor
      · intro q m hm
        by_cases hq : psk = q
        · subst hq
          rw [hgl m] at hm
          rw [hgs m]
          by_cases hnm : n = m
          · rw [if_pos hnm] at hm
            cases hm
          · rw [if_neg hnm] at hm
            rw [if_neg hnm]
            exact hd psk m hm
        · have h1 : (moveStep db psk n).1.cf_handle (CfName.live q)
              = db.cf_handle (CfName.live q) :=
            hgc (CfName.live q) (fun hh => hq (CfName.live.inj hh).symm)
              (live_ne_spent q psk)
          have h2 : (moveStep db psk n).1.cf_handle (CfName.spent q)
              = db.cf_handle (CfName.spent q) :=
            hgc (CfName.spent q) (spent_ne_live q psk)
              (fun hh => hq (CfName.spent.inj hh).symm)
          rw [get_cf_eq_of_handle h1 m] at hm
          rw [get_cf_eq_of_handle h2 m]
          exact hd q m hm
      · intro q m w hm
        by_cases hq : psk = q
        · subst hq
          rw [hgs m]
          by_cases hnm : n = m
          · subst hnm
            rw [hd psk n (by rw [hv]; rfl)] at hm
            cases hm
          · rw [if_neg hnm]
            exact hm
        · have h2 : (moveStep db psk n).1.cf_handle (CfName.spent q)
              = db.cf_handle (CfName.spent q) :=
            hgc (CfName.spent q) (spent_ne_live q psk)
              (fun hh => hq (CfName.spent.inj hh).symm)
          rw [get_cf_eq_of_handle h2 m]
          exact hm

lemma moveSpent_disj (psk : Nat) :
    ∀ (ns : List Nat) (db : DB), (∀ q, Disj db q) →
      (∀ q, Disj (moveSpent db psk ns).1 q)
      ∧ (∀ q m v, db.get_cf (CfName.spent q) m = some v →
          (moveSpent db psk ns).1.get_cf (CfName.spent q) m = some v) := by
  intro ns
  induction ns with
  | nil =>
      intro db hd
      exact ⟨hd, fun q m v h => h⟩
  | cons n nsTail ih =>
      intro db hd
      obtain ⟨hd1, hmono1⟩ := moveStep_disj db psk n hd
      simp only [moveSpent]
      cases he : (moveStep db psk n).2 with
      | some e => exact ⟨hd1, hmono1⟩
      | none =>
          obtain ⟨hd2, hmono2⟩ := ih (moveStep db psk n).1 hd1
          exact ⟨hd2, fun q m v h => hmono2 q m v (hmono1 q m v h)⟩

lemma reconcileKey_disj (remote : List Nat → Except Error (List Nat))
    (db : DB) (psk : Nat) (hd : ∀ q, Disj db q) :
    (∀ q, Disj (reconcileKey remote db psk).1 q)
    ∧ (∀ q m v, db.get_cf (CfName.spent q) m = some v →
        (reconcileKey remote db psk).1.get_cf (CfName.spent q) m
          = some v) := by
  cases hcf : db.cf_handle (CfName.live psk) with
  | none =>
      simp only [reconcileKey, hcf]
      exact ⟨hd, fun q m v h => h⟩
  | some cf =>
      by_cases hemp : (cf.map Prod.fst).isEmpty
      · simp only [reconcileKey, hcf, hemp, if_true]
        exact ⟨hd, fun q m v h => h⟩
      · cases hsp : db.cf_handle (CfName.spent psk) with
        | none =>
            simp only [reconcileKey, hcf, hsp,
              Bool.not_eq_true] at hemp ⊢
            rw [hemp]
            simp only [Bool.false_eq_true, if_false]
            exact ⟨hd, fun q m v h => h⟩
        | some sp =>
            simp only [reconcileKey, hcf, hsp, Bool.not_eq_true] at hemp ⊢
            rw [hemp]
            simp only [Bool.false_eq_true, if_false,
              fetch_existing_nullifiers_remote, hemp]
            cases hrm : remote (cf.map Prod.fst) with
            | error e =>
                exact ⟨hd, fun q m v h => h⟩
            | ok existing =>
                exact moveSpent_disj psk existing db hd

lemma reconcileAll_disj (remote : List Nat → Except Error (List Nat)) :
    ∀ (addrs : List KeyTuple) (db : DB), (∀ q, Disj db q) →
      (∀ q, Disj (reconcileAll remote addrs db).1 q)
      ∧ (∀ q m v, db.get_cf (CfName.spent q) m = some v →
          (reconcileAll remote addrs db).1.get_cf (CfName.spent q) m
            = some v) := by
  intro addrs
  induction addrs with
  | nil =>
      intro db hd
      exact ⟨hd, fun q m v h => h⟩
  | cons t ts ih =>
      intro db hd
      obtain ⟨hd1, hmono1⟩ := reconcileKey_disj remote db t.psk hd
      simp only [reconcileAll]
      cases he : (reconcileKey remote db t.psk).2.2 with
      | some e => exact ⟨hd1, hmono1⟩
      | none =>
          obtain ⟨hd2, hmono2⟩ := ih (reconcileKey remote db t.psk).1 hd1
          exact ⟨hd2, fun q m v h => hmono2 q m v (hmono1 q m v h)⟩

/-- C5 counterexample: starting from a fresh cache, a first sync inserts
the owned note (nullifier 7) and the remote confirms it, migrating it to
spent; a second sync whose stream redelivers the same record (the
transport is untrusted) re-inserts it into live while the remote now
confirms nothing, so after this sequence of sync operations nullifier 7
is in both the live and the spent partition of key 0 — refuting the
claimed always-disjointness. -/
theorem sync_live_spent_overlap_reachable :
    c5run1.2.2 = none
    ∧ c5run2.2.2 = none
    ∧ (c5run2.1.get_cf (CfName.live 0) 7).isSome = true
    ∧ (c5run2.1.get_cf (CfName.spent 0) 7).isSome = true
    ∧ ¬ Disj c5run2.1 0 := by
  refine ⟨rfl, rfl, rfl, rfl, ?_⟩
  intro h
  have h7 := h 7 rfl
  have hs : (c5run2.1.get_cf (CfName.spent 0) 7).isSome = true := rfl
  rw [h7] at hs
  simp at hs

/-- C5 (amended): live/spent disjointness for every public key is
preserved by a whole `sync_db` run provided no decodable record's derived
nullifier (for the key that would own it) is already in that key's spent
partition — in particular by any run that only delivers fresh notes; the
spent partitions only ever grow (migration live to spent is the only
transition between partitions and is one-directional), and reconciliation
alone preserves disjointness unconditionally. A stream redelivering an
already-spent note violates disjointness, as the counterexample shows. -/
theorem sync_disjoint_preserved_fresh
    (k : Nat) (dec : List Nat → Except Unit TreeLeaf)
    (owns : Nat → Note → Bool) (gnf : Note → Nat → Nat)
    (addrs : List KeyTuple) (remote : List Nat → Except Error (List Nat))
    (db : DB) (chunks : List (Except Error (List Nat)))
    (hd : ∀ psk, Disj db psk)
    (hfresh : ∀ b leaf t, dec b = Except.ok leaf →
      addrs.find? (fun a => owns a.vk leaf.note) = some t →
      db.get_cf (CfName.spent t.psk) (gnf leaf.note t.ssk) = none) :
    (∀ psk, Disj (sync_db k dec owns gnf addrs remote db chunks).1 psk)
    ∧ (∀ psk n v, db.get_cf (CfName.spent psk) n = some v →
        (sync_db k dec owns gnf addrs remote db chunks).1.get_cf
          (CfName.spent psk) n = some v)
    ∧ (∀ (remote2 : List Nat → Except Error (List Nat)) (db2 : DB),
        (∀ psk, Disj db2 psk) →
        ∀ psk, Disj (reconcileAll remote2 addrs db2).1 psk) := by
  obtain ⟨hsp1, hd1⟩ := syncStream_disj k dec owns gnf addrs db hfresh
    chunks ⟨db, (Cache.last_pos db).getD 0⟩ [] (fun q => rfl) hd
  simp only [sync_db]
  cases he : (syncStream k dec owns gnf addrs
      ⟨db, (Cache.last_pos db).getD 0⟩ [] chunks).2.2 with
  | some e =>
      refine ⟨hd1, ?_, fun remote2 db2 h2 => (reconcileAll_disj remote2
        addrs db2 h2).1⟩
      intro psk n v hv
      rw [get_cf_eq_of_handle (hsp1 psk) n]
      exact hv
  | none =>
      obtain ⟨hd2, hmono2⟩ := reconcileAll_disj remote addrs
        (syncStream k dec owns gnf addrs
          ⟨db, (Cache.last_pos db).getD 0⟩ [] chunks).1.db hd1
      refine ⟨hd2, ?_, fun remote2 db2 h2 => (reconcileAll_disj remote2
        addrs db2 h2).1⟩
      intro psk n v hv
      refine hmono2 psk n v ?_
      rw [get_cf_eq_of_handle (hsp1 psk) n]
      exact hv

/-- Witness for the amended C5: a run over `dbSpent9` (spent partition of
key 0 holds nullifier 9, stream delivers a fresh note with nullifier 7)
keeps the spent entry 9 intact. -/
theorem sync_disjoint_preserved_fresh_witness :
    (sync_db 1 decByte ownsAll gnfSeven [addr0] remoteEmpty dbSpent9
      [Except.ok [3]]).1.get_cf (CfName.spent 0) 9 = some (mkStored 9) := by
  have hd : ∀ psk, Disj dbSpent9 psk := by
    intro psk n h
    simp [dbSpent9, Disj, DB.get_cf, DB.cf_handle, getA] at h
  have hfresh : ∀ b leaf t, decByte b = Except.ok leaf →
      [addr0].find? (fun a => ownsAll a.vk leaf.note) = some t →
      dbSpent9.get_cf (CfName.spent t.psk) (gnfSeven leaf.note t.ssk)
        = none := by
    intro b leaf t h1 h2
    injection h2 with h2
    subst h2
    rfl
  exact (sync_disjoint_preserved_fresh 1 decByte ownsAll gnfSeven [addr0]
    remoteEmpty dbSpent9 [Except.ok [3]] hd hfresh).2.1 0 9 (mkStored 9) rfl
